import Mathlib

set_option maxHeartbeats 1000000

namespace IArsenicBot


/-! Character-list utilities shared by the embeddings. -/

/-- `startsWithL p l` is JavaScript `l.startsWith(p)` on char lists. -/
def startsWithL : List Char → List Char → Bool
  | [], _ => true
  | _ :: _, [] => false
  | p :: ps, c :: cs => p = c && startsWithL ps cs

/-- `endsWithL s l` is JavaScript `l.endsWith(s)` on char lists. -/
def endsWithL (s l : List Char) : Bool :=
  startsWithL s.reverse l.reverse

/-- The whitespace set stripped by JavaScript `String.prototype.trim`
(ASCII whitespace plus the common Unicode space characters). -/
def isJsSpace (c : Char) : Bool :=
  c = ' ' || c = '\t' || c = '\n' || c = '\r' ||
  c = '\x0b' || c = '\x0c' || c = ' ' ||
  c = ' ' || c = ' ' || c = ' ' ||
  c = ' ' || c = ' ' || c = '　' || c = '﻿' ||
  (0x2000 ≤ c.toNat && c.toNat ≤ 0x200a)

/-- JavaScript `String.prototype.trim` on char lists. -/
def jsTrim (l : List Char) : List Char :=
  ((l.dropWhile isJsSpace).reverse.dropWhile isJsSpace).reverse

/-- Prepend a character to the first segment of a non-empty segment list. -/
def consHead (c : Char) : List (List Char) → List (List Char)
  | [] => [[c]]
  | l :: ls => (c :: l) :: ls

/-- JavaScript `buffer.split` with the line-break pattern (CR-optional LF) on
char lists: cut at every `'\n'`, consuming one `'\r'` immediately before it
when present.  The result is always non-empty; the last element is the
trailing segment after the final line break. -/
def splitRN : List Char → List (List Char)
  | [] => [[]]
  | '\n' :: rest => [] :: splitRN rest
  | '\r' :: '\n' :: rest => [] :: splitRN rest
  | c :: rest => consHead c (splitRN rest)

/-- The value returned by JavaScript `lines.pop()` (the trailing segment);
`[]` on an empty list, matching `lines.pop() ?? ""`. -/
def lastSeg (S : List (List Char)) : List Char :=
  S.foldl (fun _ x => x) []

/-- The list left behind by JavaScript `lines.pop()`: all segments but the
last. -/
def initSegs : List (List Char) → List (List Char)
  | [] => []
  | [_] => []
  | x :: xs => x :: initSegs xs

/-! JSON value model: the result shape produced by `JSON.parse`, used by both
the stream decoder and the compaction job.  `JSON.parse` itself is an engine
primitive; functions that call it take an abstract `parse` argument. -/

inductive JsonVal where
  | jnull : JsonVal
  | jbool : Bool → JsonVal
  | jnum : Int → JsonVal
  | jstr : List Char → JsonVal
  | jarr : List JsonVal → JsonVal
  | jobj : List (List Char × JsonVal) → JsonVal

/-- JavaScript property read `v[k]`: a field lookup on objects, `undefined`
(here `none`) on everything else. -/
def getField : JsonVal → List Char → Option JsonVal
  | .jobj fields, k => (fields.find? (fun p => p.1 == k)).map (fun p => p.2)
  | _, _ => none

def isStrVal : JsonVal → Bool
  | .jstr _ => true
  | _ => false

def strOf : JsonVal → List Char
  | .jstr s => s
  | _ => []

/-- `ot.join("")` for an array of strings. -/
def joinStrs (xs : List JsonVal) : List Char :=
  (xs.map strOf).flatten

/-- The `delta.text` probe of `pullFromLine`: defined when `obj.delta` is an
object whose `text` field is a string (the JavaScript truthiness and
`typeof === "object"` guards reject exactly the values on which the inner
field read cannot yield a string). -/
def deltaText (obj : JsonVal) : Option (List Char) :=
  match getField obj "delta".data with
  | some d =>
    match getField d "text".data with
    | some (.jstr s) => some s
    | _ => none
  | none => none

/-- The final `obj.text` probe of `pullFromLine`. -/
def textField (obj : JsonVal) : Option (List Char) :=
  match getField obj "text".data with
  | some (.jstr s) => some s
  | _ => none

def fallbackText (obj : JsonVal) : List Char :=
  match deltaText obj with
  | some s => s
  | none =>
    match textField obj with
    | some s => s
    | none => []

/-- `pullFromLine` from the fetch interceptor (ChatKitPanel.tsx): locate the
first opening brace, parse the remainder as JSON, and extract assistant text
by priority `output_text` string, `output_text` all-string array joined,
`delta.text`, `text`; any failure yields the empty string. -/
def pullFromLine (parse : List Char → Option JsonVal) (line : List Char) :
    List Char :=
  match line.findIdx? (fun c => c = '{') with
  | none => []
  | some i =>
    match parse (line.drop i) with
    | none => []
    | some obj =>
      match getField obj "output_text".data with
      | some (.jstr s) => s
      | some (.jarr xs) =>
        if xs.all isStrVal then joinStrs xs else fallbackText obj
      | _ => fallbackText obj

def dataMarker : List Char := "data:".data

/-- One iteration of the stream loop body for a complete line: trim, skip
lines that do not start with `data:`, otherwise append the extracted piece
(when non-empty) to the running text. -/
def processLine (parse : List Char → Option JsonVal)
    (full line : List Char) : List Char :=
  let t := jsTrim line
  if startsWithL dataMarker t then
    let piece := pullFromLine parse t
    if piece = [] then full else full ++ piece
  else full

/-- The decoder loop state: the pending partial line and the assembled
text. -/
structure SSEState where
  buffer : List Char
  full : List Char
deriving DecidableEq

/-- One chunk arriving: append to the buffer, split into lines, keep the
trailing segment as the new buffer (`lines.pop()`), process every complete
line in order. -/
def feedChunk (parse : List Char → Option JsonVal)
    (st : SSEState) (chunk : List Char) : SSEState :=
  let lines := splitRN (st.buffer ++ chunk)
  { buffer := lastSeg lines
    full := (initSegs lines).foldl (processLine parse) st.full }

/-- Stream end: process the trailing partial line once more when it still
carries the `data:` marker (untrimmed, as in the source). -/
def finishSSE (parse : List Char → Option JsonVal) (st : SSEState) :
    List Char :=
  if startsWithL dataMarker st.buffer then
    let tail := pullFromLine parse st.buffer
    if tail = [] then st.full else st.full ++ tail
  else st.full

/-- The whole stream decode over a sequence of decoded chunks. -/
def decodeSSE (parse : List Char → Option JsonVal)
    (chunks : List (List Char)) : List Char :=
  finishSSE parse (chunks.foldl (feedChunk parse) ⟨[], []⟩)

/-- Modelled from the spec ("the assembled text is exactly the ordered
concatenation of every extractable fragment"): the fragments of a payload are
the extraction results of each complete trimmed `data:` line in order, plus
the trailing partial line when it carries the marker. -/
def specFragments (parse : List Char → Option JsonVal) (s : List Char) :
    List (List Char) :=
  let lines := splitRN s
  (((initSegs lines).map jsTrim).filter (startsWithL dataMarker)).map
      (pullFromLine parse) ++
    (if startsWithL dataMarker (lastSeg lines) then
      [pullFromLine parse (lastSeg lines)]
    else [])

/-! `JSON.stringify` model: compact serialization with string escaping, used
by the compaction job when re-serializing parsed per-event objects. -/

def hexDigit (n : Nat) : Char :=
  if n < 10 then Char.ofNat (48 + n) else Char.ofNat (87 + n)

/-- One character of a JSON string body, escaped as `JSON.stringify` does. -/
def escChar (c : Char) : List Char :=
  if c = '"' then ['\\', '"']
  else if c = '\\' then ['\\', '\\']
  else if c = '\x08' then ['\\', 'b']
  else if c = '\t' then ['\\', 't']
  else if c = '\n' then ['\\', 'n']
  else if c = '\x0c' then ['\\', 'f']
  else if c = '\r' then ['\\', 'r']
  else if c.toNat < 32 then
    ['\\', 'u', '0', '0', hexDigit (c.toNat / 16), hexDigit (c.toNat % 16)]
  else [c]

def escStr (s : List Char) : List Char :=
  '"' :: (s.map escChar).flatten ++ ['"']

/-- Decimal digit character. -/
def digCh : Nat → Char
  | 0 => '0'
  | 1 => '1'
  | 2 => '2'
  | 3 => '3'
  | 4 => '4'
  | 5 => '5'
  | 6 => '6'
  | 7 => '7'
  | 8 => '8'
  | _ => '9'

/-- Decimal digits of a natural number, fuel-structured so that it reduces. -/
def natDigsAux : Nat → Nat → List Char → List Char
  | 0, _, acc => acc
  | fuel + 1, n, acc =>
    if n / 10 = 0 then digCh (n % 10) :: acc
    else natDigsAux fuel (n / 10) (digCh (n % 10) :: acc)

def natChars (n : Nat) : List Char :=
  natDigsAux (n + 1) n []

def intChars : Int → List Char
  | .ofNat n => natChars n
  | .negSucc n => '-' :: natChars (n + 1)

mutual

def stringify : JsonVal → List Char
  | .jnull => "null".data
  | .jbool true => "true".data
  | .jbool false => "false".data
  | .jnum n => intChars n
  | .jstr s => escStr s
  | .jarr xs => '[' :: stringifyArr xs ++ [']']
  | .jobj fs => '{' :: stringifyObj fs ++ ['\x7d']

def stringifyArr : List JsonVal → List Char
  | [] => []
  | [x] => stringify x
  | x :: xs => stringify x ++ ',' :: stringifyArr xs

def stringifyObj : List (List Char × JsonVal) → List Char
  | [] => []
  | [(k, v)] => escStr k ++ ':' :: stringify v
  | (k, v) :: fs => (escStr k ++ ':' :: stringify v) ++ ',' :: stringifyObj fs

end

/-! Blob store model and the compaction endpoint
(`src/app/api/admin/compact/route.ts`). -/

structure Blob where
  pathname : List Char
  content : List Char
deriving DecidableEq

structure Store where
  blobs : List Blob
deriving DecidableEq

/-- `list({ prefix })`: the blobs whose pathname begins with the given
pattern, in stored (listing) order. -/
def listByPat (store : Store) (p : List Char) : List Blob :=
  store.blobs.filter (fun b => startsWithL p b.pathname)

/-- `put(key, body, { addRandomSuffix: false })`: overwrite any blob at the
same key and append the new object. -/
def putBlob (store : Store) (k body : List Char) : Store :=
  ⟨store.blobs.filter (fun b => b.pathname ≠ k) ++ [⟨k, body⟩]⟩

/-- `del(pathname)`. -/
def delBlob (store : Store) (p : List Char) : Store :=
  ⟨store.blobs.filter (fun b => b.pathname ≠ p)⟩

/-- The deletion loop: `for (const f of files) await del(f.pathname)`. -/
def delAll (store : Store) (files : List Blob) : Store :=
  files.foldl (fun st f => delBlob st f.pathname) store

/-- Trace of storage operations a handler run performs. -/
inductive StoreOp where
  | listOp : List Char → StoreOp
  | readOp : List Char → StoreOp
  | putOp : List Char → List Char → StoreOp
  | delOp : List Char → StoreOp
deriving DecidableEq

/-- The environment variables read by the compaction route; the empty string
models an unset variable (both are falsy in the JavaScript guards). -/
structure CompactEnv where
  cronSecret : List Char
  logAdminKey : List Char
deriving DecidableEq

/-- The request data the compaction route reads. -/
structure CompactReq where
  authHeader : Option (List Char)
  keyParam : Option (List Char)
  dayParam : Option (List Char)
  forceParam : Option (List Char)
deriving DecidableEq

/-- `okAuth` from the compaction route: bearer token against `CRON_SECRET`,
else `key` query parameter against `LOG_ADMIN_KEY`. -/
def okAuth (env : CompactEnv) (req : CompactReq) : Bool :=
  let auth := req.authHeader.getD []
  let bearerOk :=
    decide (env.cronSecret ≠ []) &&
      decide (auth = "Bearer ".data ++ env.cronSecret)
  if bearerOk then true
  else
    let key := req.keyParam.getD []
    decide (env.logAdminKey ≠ []) && decide (key = env.logAdminKey)

/-- The route's response, by branch.  `forbidden` is the plain-text 403; the
other three are the JSON bodies (`already` and `noFiles` report
`written:false, deleted:0`; `merged` reports `written:true`). -/
inductive CompactResp where
  | forbidden : CompactResp
  | already : List Char → List Char → CompactResp
  | noFiles : List Char → CompactResp
  | merged : List Char → List Char → Nat → CompactResp
deriving DecidableEq

def statusOf : CompactResp → Nat
  | .forbidden => 403
  | _ => 200

def writtenOf : CompactResp → Bool
  | .merged _ _ _ => true
  | _ => false

def deletedOf : CompactResp → Nat
  | .merged _ _ d => d
  | _ => 0

/-- `url.searchParams.get("day") || yyyymmddUTC(new Date())`; the ambient
clock value is passed in as `defaultDay`. -/
def resolvedDay (req : CompactReq) (defaultDay : List Char) : List Char :=
  match req.dayParam with
  | some d => if d ≠ [] then d else defaultDay
  | none => defaultDay

def outKeyOf (day : List Char) : List Char :=
  "logs/".data ++ day ++ ".ndjson".data

def dayPat (day : List Char) : List Char :=
  "logs/".data ++ day ++ ['/']

/-- Re-serialization of one event object's text: a compact JSON line when it
parses, otherwise the raw text with a trailing newline ensured. -/
def lineOf (parse : List Char → Option JsonVal) (t : List Char) : List Char :=
  match parse t with
  | some obj => stringify obj ++ ['\n']
  | none => if endsWithL ['\n'] t then t else t ++ ['\n']

/-- The batched read loop (`batchSize = 40`), fuel-structured on the file
count so that it reduces. -/
def batchLoopAux (parse : List Char → Option JsonVal) :
    Nat → List Blob → List (List Char)
  | 0, _ => []
  | _, [] => []
  | fuel + 1, fs =>
    (fs.take 40).map (fun b => lineOf parse b.content) ++
      batchLoopAux parse fuel (fs.drop 40)

def batchLoop (parse : List Char → Option JsonVal) (fs : List Blob) :
    List (List Char) :=
  batchLoopAux parse fs.length fs

/-- The per-event objects of a day: everything under the day's pattern whose
pathname ends in `.json`. -/
def eventFiles (store : Store) (day : List Char) : List Blob :=
  (listByPat store (dayPat day)).filter
    (fun b => endsWithL ".json".data b.pathname)

/-- The merged NDJSON body: the batched per-file lines, concatenated with
`lines.join("")`. -/
def mergedBody (parse : List Char → Option JsonVal) (store : Store)
    (day : List Char) : List Char :=
  (batchLoop parse (eventFiles store day)).flatten

/-- `GET /api/admin/compact`: returns the final store, the trace of storage
operations performed, and the response. -/
def compactGET (parse : List Char → Option JsonVal) (env : CompactEnv)
    (req : CompactReq) (defaultDay : List Char) (store : Store) :
    Store × List StoreOp × CompactResp :=
  if okAuth env req = false then (store, [], .forbidden)
  else
    let force := req.forceParam = some ['1']
    let day := resolvedDay req defaultDay
    let outKey := outKeyOf day
    let existing := listByPat store outKey
    if ¬force ∧ existing.length > 0 then
      (store, [.listOp outKey], .already day outKey)
    else
      let files := eventFiles store day
      if files.length = 0 then
        (store, [.listOp outKey, .listOp (dayPat day)], .noFiles day)
      else
        let body := mergedBody parse store day
        (delAll (putBlob store outKey body) files,
          [.listOp outKey, .listOp (dayPat day)] ++
            files.map (fun b => .readOp b.pathname) ++
            [.putOp outKey body] ++ files.map (fun b => .delOp b.pathname),
          .merged day outKey files.length)

/-- Number of stored blobs at exactly the given key. -/
def countKey (store : Store) (k : List Char) : Nat :=
  (store.blobs.filter (fun b => b.pathname = k)).length

/-! Turn Correlator (ChatKitPanel.tsx): the single PendingTurn buffer
`turnRef` and the `sendTurnIfReady` emission. -/

structure PendingTurn where
  id : List Char
  userText : Option (List Char)
  userTs : Option (List Char)
deriving DecidableEq

structure TurnPayload where
  id : List Char
  user_text : List Char
  user_ts : List Char
  assistant_text : List Char
  assistant_ts : List Char
  meta : List (List Char × List Char)
deriving DecidableEq

/-- The interceptor's user-side capture (`window.fetch` wrapper): a new
PendingTurn replaces the buffer only when the extracted user text is
non-blank; otherwise the buffer is untouched. -/
def beginTurn (st : Option PendingTurn) (userText : List Char)
    (nowId nowTs : List Char) : Option PendingTurn :=
  if (jsTrim userText).length > 0 then
    some ⟨nowId, some userText, some nowTs⟩
  else st

/-- `sendTurnIfReady(assistantText, meta)`: no-op on blank assistant text,
else emit one turn payload (pairing with the buffered PendingTurn when
present, empty user fields otherwise) and clear the buffer. -/
def sendTurnIfReady (st : Option PendingTurn) (assistantText : List Char)
    (meta : List (List Char × List Char)) (nowTs nowId path : List Char) :
    Option PendingTurn × Option TurnPayload :=
  if assistantText = [] ∨ (jsTrim assistantText).length = 0 then (st, none)
  else
    match st with
    | some current =>
      (none, some ⟨current.id, current.userText.getD [], current.userTs.getD [],
        assistantText, nowTs, meta ++ [("path".data, path)]⟩)
    | none =>
      (none, some ⟨nowId, [], [], assistantText, nowTs,
        meta ++ [("path".data, path)]⟩)

/-! Ingestion endpoint `POST /api/log-event`: the capped legacy handler
(`src/app/api/log-event/route.ts`) and the turn-aware handler
(`src/unnamed/part_000`). -/

/-- JavaScript falsiness of a JSON value (NaN does not arise from the integer
number model). -/
def jsFalsy : JsonVal → Bool
  | .jnull => true
  | .jbool b => !b
  | .jnum n => n = 0
  | .jstr s => s = []
  | .jarr _ => false
  | .jobj _ => false

mutual

/-- JavaScript `String(v)` on a JSON value. -/
def jsString : JsonVal → List Char
  | .jnull => "null".data
  | .jbool true => "true".data
  | .jbool false => "false".data
  | .jnum n => intChars n
  | .jstr s => s
  | .jarr xs => jsStringArr xs
  | .jobj _ => "[object Object]".data

/-- `Array.prototype.toString`: elements joined with commas. -/
def jsStringArr : List JsonVal → List Char
  | [] => []
  | [x] => jsStringElem x
  | x :: xs => jsStringElem x ++ ',' :: jsStringArr xs

/-- An array element renders as the empty string when `null`. -/
def jsStringElem : JsonVal → List Char
  | .jnull => []
  | v => jsString v

end

/-- `String(v || d)`: the fallback on falsy values, then string coercion. -/
def jsOrDefault (v : Option JsonVal) (d : List Char) : List Char :=
  match v with
  | none => d
  | some x => if jsFalsy x then d else jsString x

/-- `String(v || "")`. -/
def jsOrEmpty (v : Option JsonVal) : List Char :=
  jsOrDefault v []

/-- `v ?? { }`: nullish coalescing to the empty object. -/
def metaOrEmpty (v : Option JsonVal) : JsonVal :=
  match v with
  | none => .jobj []
  | some .jnull => .jobj []
  | some m => m

/-- `cap` from route.ts: `String(v ?? '').slice(0, n)`. -/
def cap (v : Option JsonVal) (n : Nat) : List Char :=
  (match v with
   | none => []
   | some .jnull => []
   | some x => jsString x).take n

structure LegacyRecord where
  ts : List Char
  role : List Char
  text : List Char
  len : Nat
  sessionId : List Char
  threadId : List Char
  meta : JsonVal
  ua : List Char

structure TurnRecord where
  ts : List Char
  id : List Char
  user_text : List Char
  user_ts : List Char
  assistant_text : List Char
  assistant_ts : List Char
  meta : JsonVal
  ua : List Char

inductive StoredRec where
  | turnRec : TurnRecord → StoredRec
  | legacyRec : LegacyRecord → StoredRec

inductive LogResp where
  | ok : List Char → LogResp
  | err : List Char → LogResp
deriving DecidableEq

def logStatus : LogResp → Nat
  | .ok _ => 200
  | .err _ => 400

/-- The `route.ts` handler: parse the body (`none` models a JSON parse
failure), build the capped legacy record (a `null` body throws on the first
property read), and put it; any thrown error is answered
`400 {ok:false, error: String(err)}` with `errMsg` standing for
`String(err)`.  Returns the response and the persisted key/record when the
put ran and succeeded. -/
def routePOST (body? : Option JsonVal) (ua? : Option (List Char))
    (nowIso day time : List Char) (errMsg : List Char) (putOk : Bool) :
    LogResp × Option (List Char × LegacyRecord) :=
  match body? with
  | none => (.err errMsg, none)
  | some .jnull => (.err errMsg, none)
  | some body =>
    let record : LegacyRecord :=
      { ts := nowIso
        role := cap (getField body "role".data) 20
        text := cap (getField body "text".data) 4000
        len := match getField body "text".data with
          | some (.jstr s) => s.length
          | _ => 0
        sessionId := cap (getField body "sessionId".data) 200
        threadId := cap (getField body "threadId".data) 200
        meta := metaOrEmpty (getField body "meta".data)
        ua := cap (ua?.map .jstr) 400 }
    let key := "logs/".data ++ day ++ '/' :: time ++ ".json".data
    if putOk then (.ok key, some (key, record)) else (.err errMsg, none)

/-- `body?.type === "turn"`. -/
def isTurnType (body : JsonVal) : Bool :=
  match getField body "type".data with
  | some (.jstr s) => s = "turn".data
  | _ => false

/-- `HH-MM-SS-mmm` from the ISO timestamp: `ts.slice(11, 23)` with `:` and
`.` replaced by `-`. -/
def timeOfIso (ts : List Char) : List Char :=
  ((ts.drop 11).take 12).map (fun c => if c = ':' ∨ c = '.' then '-' else c)

/-- The `part_000` handler: a body that fails to parse degrades to `{ }`;
a turn-shaped body is stored uncapped as a TurnRecord under a `.turn.json`
key; otherwise an uncapped legacy record is stored (a `null` body throws at
`body.text`); any thrown error — including a storage failure, modelled by
`putOk = false` — is answered `400 {ok:false, error:"bad_request"}`. -/
def turnPOST (body? : Option JsonVal) (ua? : Option (List Char))
    (ts : List Char) (putOk : Bool) :
    LogResp × Option (List Char × StoredRec) :=
  let ua := ua?.getD []
  let body := body?.getD (.jobj [])
  if isTurnType body then
    let record : TurnRecord :=
      { ts := ts
        id := jsOrEmpty (getField body "id".data)
        user_text := jsOrEmpty (getField body "user_text".data)
        user_ts := jsOrEmpty (getField body "user_ts".data)
        assistant_text := jsOrEmpty (getField body "assistant_text".data)
        assistant_ts := jsOrEmpty (getField body "assistant_ts".data)
        meta := metaOrEmpty (getField body "meta".data)
        ua := ua }
    let key := "logs/".data ++ ts.take 10 ++ '/' :: timeOfIso ts ++
      ".turn.json".data
    if putOk then (.ok key, some (key, .turnRec record))
    else (.err "bad_request".data, none)
  else
    match body with
    | .jnull => (.err "bad_request".data, none)
    | _ =>
      let text := jsOrEmpty (getField body "text".data)
      let record : LegacyRecord :=
        { ts := ts
          role := jsOrDefault (getField body "role".data) "user".data
          text := text
          len := text.length
          sessionId := jsOrEmpty (getField body "sessionId".data)
          threadId := jsOrEmpty (getField body "threadId".data)
          meta := metaOrEmpty (getField body "meta".data)
          ua := ua }
      let key := "logs/".data ++ ts.take 10 ++ '/' :: timeOfIso ts ++
        ".json".data
      if putOk then (.ok key, some (key, .legacyRec record))
      else (.err "bad_request".data, none)

def storedRole : StoredRec → List Char
  | .legacyRec r => r.role
  | .turnRec _ => []

def storedLen : StoredRec → Nat
  | .legacyRec r => r.len
  | .turnRec _ => 0

theorem consHead_ne_nil (c : Char) (ls : List (List Char)) : consHead c ls ≠ [] := by
  cases ls <;> simp [consHead]

theorem splitRN_ne_nil (l : List Char) : splitRN l ≠ [] := by
  induction l using splitRN.induct <;>
    simp only [splitRN] <;>
    first
      | (exact consHead_ne_nil _ _)
      | simp

example : splitRN "ab\ncd\r\ne".data = ["ab".data, "cd".data, "e".data] := by decide

example : splitRN "x\r".data = [['x', '\r']] := by decide

theorem foldl_pick_cons (d y : List Char) (ys : List (List Char)) :
    List.foldl (fun _ x => x) d (y :: ys) = List.foldl (fun _ x => x) y ys := rfl

theorem lastSeg_append (S T : List (List Char)) (hT : T ≠ []) :
    lastSeg (S ++ T) = lastSeg T := by
  cases T with
  | nil => exact absurd rfl hT
  | cons t ts =>
    simp only [lastSeg, List.foldl_append]
    rw [foldl_pick_cons, foldl_pick_cons]

theorem lastSeg_cons_of_ne_nil (y : List Char) (S : List (List Char)) (h : S ≠ []) :
    lastSeg (y :: S) = lastSeg S := by
  cases S with
  | nil => exact absurd rfl h
  | cons s ss => rfl

theorem lastSeg_singleton (x : List Char) : lastSeg [x] = x := rfl

theorem initSegs_cons_of_ne_nil (x : List Char) (xs : List (List Char)) (h : xs ≠ []) :
    initSegs (x :: xs) = x :: initSegs xs := by
  cases xs with
  | nil => exact absurd rfl h
  | cons y ys => rfl

theorem initSegs_append (S T : List (List Char)) (hT : T ≠ []) :
    initSegs (S ++ T) = S ++ initSegs T := by
  induction S with
  | nil => rfl
  | cons x S ih =>
    have hne : S ++ T ≠ [] := by
      intro h
      rcases List.append_eq_nil.mp h with ⟨_, h2⟩
      exact hT h2
    rw [List.cons_append, initSegs_cons_of_ne_nil x (S ++ T) hne, ih, List.cons_append]

theorem splitRN_cons_nl (rest : List Char) :
    splitRN ('\n' :: rest) = [] :: splitRN rest := rfl

theorem splitRN_cons_crnl (rest : List Char) :
    splitRN ('\r' :: '\n' :: rest) = [] :: splitRN rest := rfl

/-- The guarded cons equation for `splitRN`: when the head character does not
begin a line break, it is prepended onto the first segment of the tail's
split. -/
theorem splitRN_cons (c : Char) (l : List Char) (h1 : c ≠ '\n')
    (h2 : ¬(c = '\r' ∧ l.head? = some '\n')) :
    splitRN (c :: l) = consHead c (splitRN l) := by
  rw [splitRN.eq_def]
  split
  · simp_all
  · simp_all
  · next x rest heq =>
    rw [List.cons.injEq] at heq
    exact absurd ⟨heq.1, by rw [heq.2]; rfl⟩ h2
  · next x c' rest' hA hB heq =>
    rw [List.cons.injEq] at heq
    rw [heq.1, heq.2]

theorem splitRN_eq_singleton {x l : List Char} (h : splitRN x = [l]) : x = l := by
  induction x using splitRN.induct generalizing l with
  | case1 => simp_all [splitRN]
  | case2 rest ih =>
    simp only [splitRN] at h
    injection h with _ h2
    exact absurd h2 (splitRN_ne_nil rest)
  | case3 rest ih =>
    simp only [splitRN] at h
    injection h with _ h2
    exact absurd h2 (splitRN_ne_nil rest)
  | case4 c rest hn hcr ih =>
    simp only [splitRN] at h
    rcases hS : splitRN rest with _ | ⟨s, ss⟩
    · exact absurd hS (splitRN_ne_nil rest)
    · rw [hS] at h
      simp only [consHead] at h
      injection h with h1 h2
      subst h2
      have hrs : rest = s := ih hS
      subst hrs
      exact h1

theorem splitRN_append (a : List Char) :
    ∀ b : List Char,
      splitRN (a ++ b) =
        initSegs (splitRN a) ++ splitRN (lastSeg (splitRN a) ++ b) := by
  induction a using splitRN.induct with
  | case1 =>
    intro b
    simp [splitRN, initSegs, lastSeg]
  | case2 rest ih =>
    intro b
    have hS := splitRN_ne_nil rest
    rw [List.cons_append, splitRN_cons_nl, splitRN_cons_nl, ih b,
      initSegs_cons_of_ne_nil _ _ hS, lastSeg_cons_of_ne_nil _ _ hS,
      List.cons_append]
  | case3 rest ih =>
    intro b
    have hS := splitRN_ne_nil rest
    rw [List.cons_append, List.cons_append, splitRN_cons_crnl, splitRN_cons_crnl,
      ih b, initSegs_cons_of_ne_nil _ _ hS, lastSeg_cons_of_ne_nil _ _ hS,
      List.cons_append]
  | case4 c rest hn hcr ih =>
    intro b
    have hn' : c ≠ '\n' := fun h => hn h
    have h2 : ¬(c = '\r' ∧ rest.head? = some '\n') := by
      rintro ⟨hc, hh⟩
      cases rest with
      | nil => simp at hh
      | cons d rest' =>
        simp only [List.head?_cons, Option.some.injEq] at hh
        exact hcr rest' hc (by rw [hh])
    by_cases hrest : rest = []
    · subst hrest
      have hA : splitRN [c] = [[c]] := by
        rw [splitRN_cons c [] hn' (by simp)]
        rfl
      rw [hA, lastSeg_singleton]
      simp [initSegs]
    · have hhead : ¬(c = '\r' ∧ (rest ++ b).head? = some '\n') := by
        rintro ⟨hc, hh⟩
        cases rest with
        | nil => exact hrest rfl
        | cons d rest' =>
          simp only [List.cons_append, List.head?_cons, Option.some.injEq] at hh
          exact hcr rest' hc (by rw [hh])
      have hL : splitRN ((c :: rest) ++ b) = consHead c (splitRN (rest ++ b)) := by
        rw [List.cons_append]
        exact splitRN_cons c (rest ++ b) hn' hhead
      have hR : splitRN (c :: rest) = consHead c (splitRN rest) :=
        splitRN_cons c rest hn' h2
      rw [hL, ih b, hR]
      rcases hS : splitRN rest with _ | ⟨s, ss⟩
      · exact absurd hS (splitRN_ne_nil rest)
      · cases ss with
        | nil =>
          have hrs : rest = s := splitRN_eq_singleton hS
          subst hrs
          have e1 : initSegs [rest] = [] := rfl
          have e2 : lastSeg [rest] = rest := rfl
          have e3 : consHead c [rest] = [c :: rest] := rfl
          rw [e1, e2, e3]
          have e4 : initSegs [c :: rest] = [] := rfl
          have e5 : lastSeg [c :: rest] = c :: rest := rfl
          rw [e4, e5, List.nil_append, List.nil_append, hL]
        | cons s2 ss' => rfl

theorem splitRN_of_not_nl (l : List Char) (h : '\n' ∉ l) : splitRN l = [l] := by
  induction l using splitRN.induct with
  | case1 => rfl
  | case2 rest ih => simp at h
  | case3 rest ih => simp at h
  | case4 c rest hn hcr ih =>
    have hc : c ≠ '\n' := fun hcn => h (hcn ▸ List.mem_cons_self c rest)
    have hrest : '\n' ∉ rest := fun hm => h (List.mem_cons_of_mem c hm)
    have h2 : ¬(c = '\r' ∧ rest.head? = some '\n') := by
      rintro ⟨_, hh⟩
      cases rest with
      | nil => simp at hh
      | cons d rest' =>
        simp only [List.head?_cons, Option.some.injEq] at hh
        exact hrest (hh ▸ List.mem_cons_self d rest')
    rw [splitRN_cons c rest hc h2, ih hrest]
    rfl

theorem nl_not_mem_lastSeg (x : List Char) : '\n' ∉ lastSeg (splitRN x) := by
  induction x using splitRN.induct with
  | case1 => simp [splitRN, lastSeg]
  | case2 rest ih => rw [splitRN_cons_nl]; exact ih
  | case3 rest ih => rw [splitRN_cons_crnl]; exact ih
  | case4 c rest hn hcr ih =>
    have hc : c ≠ '\n' := fun hcn => hn hcn
    have h2 : ¬(c = '\r' ∧ rest.head? = some '\n') := by
      rintro ⟨hcr', hh⟩
      cases rest with
      | nil => simp at hh
      | cons d rest' =>
        simp only [List.head?_cons, Option.some.injEq] at hh
        exact hcr rest' hcr' (by rw [hh])
    rw [splitRN_cons c rest hc h2]
    rcases hS : splitRN rest with _ | ⟨s, ss⟩
    · exact absurd hS (splitRN_ne_nil rest)
    · rw [hS] at ih
      cases ss with
      | nil =>
        intro hm
        rcases List.mem_cons.mp ((lastSeg_singleton (c :: s)) ▸ hm) with h | h
        · exact hc h.symm
        · exact ih (by rw [lastSeg_singleton]; exact h)
      | cons s2 ss' =>
        have hne : (s2 :: ss' : List (List Char)) ≠ [] := by simp
        rw [show consHead c (s :: s2 :: ss') = (c :: s) :: s2 :: ss' from rfl,
          lastSeg_cons_of_ne_nil _ _ hne]
        rw [lastSeg_cons_of_ne_nil _ _ hne] at ih
        exact ih

theorem splitRN_lastSeg (x : List Char) :
    splitRN (lastSeg (splitRN x)) = [lastSeg (splitRN x)] :=
  splitRN_of_not_nl _ (nl_not_mem_lastSeg x)

theorem feedChunk_nil (parse : List Char → Option JsonVal) (st : SSEState)
    (h : splitRN st.buffer = [st.buffer]) : feedChunk parse st [] = st := by
  cases st with
  | mk b f =>
    simp only [feedChunk, List.append_nil]
    simp only at h
    rw [h, lastSeg_singleton]
    rfl

theorem feedChunk_append (parse : List Char → Option JsonVal) (st : SSEState)
    (c b : List Char) :
    feedChunk parse (feedChunk parse st c) b = feedChunk parse st (c ++ b) := by
  cases st with
  | mk b0 f0 =>
    have hT := splitRN_ne_nil (lastSeg (splitRN (b0 ++ c)) ++ b)
    simp only [feedChunk]
    rw [show b0 ++ (c ++ b) = (b0 ++ c) ++ b from (List.append_assoc b0 c b).symm,
      splitRN_append (b0 ++ c) b,
      lastSeg_append _ _ hT, initSegs_append _ _ hT, List.foldl_append]

theorem foldl_feedChunk (parse : List Char → Option JsonVal)
    (chunks : List (List Char)) :
    ∀ st : SSEState, splitRN st.buffer = [st.buffer] →
      chunks.foldl (feedChunk parse) st = feedChunk parse st chunks.flatten := by
  induction chunks with
  | nil =>
    intro st h
    simp only [List.foldl_nil, List.flatten_nil, List.flatten]
    exact (feedChunk_nil parse st h).symm
  | cons c cs ih =>
    intro st h
    have hinv : splitRN (feedChunk parse st c).buffer =
        [(feedChunk parse st c).buffer] := by
      simp only [feedChunk]
      exact splitRN_lastSeg (st.buffer ++ c)
    calc (c :: cs).foldl (feedChunk parse) st
        = cs.foldl (feedChunk parse) (feedChunk parse st c) := rfl
      _ = feedChunk parse (feedChunk parse st c) cs.flatten := ih _ hinv
      _ = feedChunk parse st (c ++ cs.flatten) := feedChunk_append parse st c cs.flatten
      _ = feedChunk parse st (c :: cs).flatten := by rw [List.flatten_cons]

theorem foldl_processLine (parse : List Char → Option JsonVal)
    (lines : List (List Char)) :
    ∀ acc : List Char,
      lines.foldl (processLine parse) acc =
        acc ++ (((lines.map jsTrim).filter (startsWithL dataMarker)).map
          (pullFromLine parse)).flatten := by
  induction lines with
  | nil => intro acc; simp
  | cons l ls ih =>
    intro acc
    rw [List.foldl_cons]
    by_cases hm : startsWithL dataMarker (jsTrim l)
    · by_cases hp : pullFromLine parse (jsTrim l) = []
      · have hstep : processLine parse acc l = acc := by
          simp [processLine, hm, hp]
        rw [hstep, ih acc]
        simp [List.filter_cons, hm, hp]
      · have hstep : processLine parse acc l =
            acc ++ pullFromLine parse (jsTrim l) := by
          simp [processLine, hm, hp]
        rw [hstep, ih]
        simp [List.filter_cons, hm, List.append_assoc]
    · have hstep : processLine parse acc l = acc := by
        simp [processLine, hm]
      rw [hstep, ih acc]
      simp [List.filter_cons, hm]

theorem decodeSSE_single (parse : List Char → Option JsonVal)
    (s : List Char) :
    decodeSSE parse [s] = (specFragments parse s).flatten := by
  simp only [decodeSSE, List.foldl_cons, List.foldl_nil, feedChunk,
    List.nil_append, finishSSE, specFragments]
  rw [foldl_processLine]
  by_cases hm : startsWithL dataMarker (lastSeg (splitRN s))
  · by_cases hp : pullFromLine parse (lastSeg (splitRN s)) = []
    · simp [hm, hp]
    · simp [hm, hp]
  · simp [hm]

/-- C6: feeding the Stream Decoder the whole payload as one chunk and feeding
the same characters split arbitrarily across many chunks yield the identical
assembled assistant text; that text equals the ordered concatenation of every
extractable fragment (one per `data:` line, in order); and a fragment whose
JSON does not parse yields the empty string, so it is skipped without
aborting the decode. -/
theorem stream_decode_equivalence (parse : List Char → Option JsonVal)
    (chunks : List (List Char)) :
    decodeSSE parse chunks = decodeSSE parse [chunks.flatten] ∧
    decodeSSE parse chunks = (specFragments parse chunks.flatten).flatten ∧
    (∀ (line : List Char) (i : Nat),
      line.findIdx? (fun c => c = '{') = some i →
      parse (line.drop i) = none →
      pullFromLine parse line = []) := by
  have h1 : decodeSSE parse chunks = decodeSSE parse [chunks.flatten] := by
    simp only [decodeSSE]
    rw [foldl_feedChunk parse chunks ⟨[], []⟩ rfl]
    rw [List.foldl_cons, List.foldl_nil]
  refine ⟨h1, h1.trans (decodeSSE_single parse chunks.flatten), ?_⟩
  intro line i hi hp
  simp only [pullFromLine, hi, hp]

/-- C6 witness: the theorem applied at a concrete parse function, chunk list
and unparseable line. -/
theorem stream_decode_equivalence_witness :
    pullFromLine (fun _ => none) ['{'] = [] :=
  (stream_decode_equivalence (fun _ => none) []).2.2 ['{'] 0 (by decide) rfl

theorem digCh_ne_nl (m : Nat) : digCh m ≠ '\n' := by
  unfold digCh
  split <;> decide

theorem nl_not_mem_natDigsAux (fuel n : Nat) :
    ∀ acc : List Char, '\n' ∉ acc → '\n' ∉ natDigsAux fuel n acc := by
  induction fuel generalizing n with
  | zero => intro acc h; exact h
  | succ fuel ih =>
    intro acc h
    simp only [natDigsAux]
    split
    · intro hm
      rcases List.mem_cons.mp hm with h1 | h1
      · exact digCh_ne_nl _ h1.symm
      · exact h h1
    · refine ih (n / 10) _ ?_
      intro hm
      rcases List.mem_cons.mp hm with h1 | h1
      · exact digCh_ne_nl _ h1.symm
      · exact h h1

theorem nl_not_mem_natChars (n : Nat) : '\n' ∉ natChars n :=
  nl_not_mem_natDigsAux (n + 1) n [] (by simp)

theorem nl_not_mem_intChars (n : Int) : '\n' ∉ intChars n := by
  cases n with
  | ofNat m => exact nl_not_mem_natChars m
  | negSucc m =>
    intro hm
    rcases List.mem_cons.mp hm with h1 | h1
    · exact absurd h1.symm (by decide)
    · exact nl_not_mem_natChars (m + 1) h1

theorem hexDigit_ne_nl {n : Nat} (h : n < 16) : hexDigit n ≠ '\n' := by
  interval_cases n <;> decide

theorem nl_not_mem_escChar (c : Char) : '\n' ∉ escChar c := by
  unfold escChar
  split_ifs with h1 h2 h3 h4 h5 h6 h7 h8
  · decide
  · decide
  · decide
  · decide
  · decide
  · decide
  · decide
  · intro hm
    have d1 : c.toNat / 16 < 16 := by omega
    have d2 : c.toNat % 16 < 16 := Nat.mod_lt _ (by omega)
    simp only [List.mem_cons, List.not_mem_nil, or_false] at hm
    rcases hm with h | h | h | h | h | h
    · exact absurd h (by decide)
    · exact absurd h (by decide)
    · exact absurd h (by decide)
    · exact absurd h (by decide)
    · exact (hexDigit_ne_nl d1) h.symm
    · exact (hexDigit_ne_nl d2) h.symm
  · intro hm
    simp only [List.mem_singleton] at hm
    exact h5 hm.symm

theorem nl_not_mem_escStr (s : List Char) : '\n' ∉ escStr s := by
  intro hm
  unfold escStr at hm
  rcases List.mem_cons.mp hm with h | h
  · exact absurd h (by decide)
  · rcases List.mem_append.mp h with h2 | h2
    · rcases List.mem_flatten.mp h2 with ⟨l, hl, hmem⟩
      rcases List.mem_map.mp hl with ⟨c, hc, hcl⟩
      exact nl_not_mem_escChar c (hcl ▸ hmem)
    · exact absurd (List.mem_singleton.mp h2) (by decide)

mutual

theorem nl_not_mem_stringify : (v : JsonVal) → '\n' ∉ stringify v
  | .jnull => by
    have h : stringify .jnull = "null".data := by simp [stringify]
    rw [h]; decide
  | .jbool true => by
    have h : stringify (.jbool true) = "true".data := by simp [stringify]
    rw [h]; decide
  | .jbool false => by
    have h : stringify (.jbool false) = "false".data := by simp [stringify]
    rw [h]; decide
  | .jnum n => by
    have h : stringify (.jnum n) = intChars n := by simp [stringify]
    rw [h]; exact nl_not_mem_intChars n
  | .jstr str => by
    have h : stringify (.jstr str) = escStr str := by simp [stringify]
    rw [h]; exact nl_not_mem_escStr str
  | .jarr xs => by
    have h : stringify (.jarr xs) = '[' :: stringifyArr xs ++ [']'] := by
      simp [stringify]
    rw [h]
    intro hm
    rcases List.mem_cons.mp hm with h1 | h1
    · exact absurd h1 (by decide)
    · rcases List.mem_append.mp h1 with h2 | h2
      · exact nl_not_mem_stringifyArr xs h2
      · exact absurd (List.mem_singleton.mp h2) (by decide)
  | .jobj fs => by
    have h : stringify (.jobj fs) = '{' :: stringifyObj fs ++ ['\x7d'] := by
      simp [stringify]
    rw [h]
    intro hm
    rcases List.mem_cons.mp hm with h1 | h1
    · exact absurd h1 (by decide)
    · rcases List.mem_append.mp h1 with h2 | h2
      · exact nl_not_mem_stringifyObj fs h2
      · exact absurd (List.mem_singleton.mp h2) (by decide)

theorem nl_not_mem_stringifyArr : (xs : List JsonVal) → '\n' ∉ stringifyArr xs
  | [] => by
    have h : stringifyArr [] = [] := by simp [stringifyArr]
    rw [h]; decide
  | [x] => by
    have h : stringifyArr [x] = stringify x := by simp [stringifyArr]
    rw [h]; exact nl_not_mem_stringify x
  | x :: y :: xs => by
    have h : stringifyArr (x :: y :: xs) =
        stringify x ++ ',' :: stringifyArr (y :: xs) := by
      simp [stringifyArr]
    rw [h]
    intro hm
    rcases List.mem_append.mp hm with h1 | h1
    · exact nl_not_mem_stringify x h1
    · rcases List.mem_cons.mp h1 with h2 | h2
      · exact absurd h2 (by decide)
      · exact nl_not_mem_stringifyArr (y :: xs) h2

theorem nl_not_mem_stringifyObj :
    (fs : List (List Char × JsonVal)) → '\n' ∉ stringifyObj fs
  | [] => by
    have h : stringifyObj [] = [] := by simp [stringifyObj]
    rw [h]; decide
  | [(k, v)] => by
    have h : stringifyObj [(k, v)] = escStr k ++ ':' :: stringify v := by
      simp [stringifyObj]
    rw [h]
    intro hm
    rcases List.mem_append.mp hm with h1 | h1
    · exact nl_not_mem_escStr k h1
    · rcases List.mem_cons.mp h1 with h2 | h2
      · exact absurd h2 (by decide)
      · exact nl_not_mem_stringify v h2
  | (k, v) :: q :: fs => by
    have h : stringifyObj ((k, v) :: q :: fs) =
        (escStr k ++ ':' :: stringify v) ++ ',' :: stringifyObj (q :: fs) := by
      simp [stringifyObj]
    rw [h]
    intro hm
    rcases List.mem_append.mp hm with h1 | h1
    · rcases List.mem_append.mp h1 with h2 | h2
      · exact nl_not_mem_escStr k h2
      · rcases List.mem_cons.mp h2 with h3 | h3
        · exact absurd h3 (by decide)
        · exact nl_not_mem_stringify v h3
    · rcases List.mem_cons.mp h1 with h2 | h2
      · exact absurd h2 (by decide)
      · exact nl_not_mem_stringifyObj (q :: fs) h2

end

theorem batchLoopAux_eq_map (parse : List Char → Option JsonVal) :
    ∀ (fuel : Nat) (fs : List Blob), fs.length ≤ fuel →
      batchLoopAux parse fuel fs = fs.map (fun b => lineOf parse b.content) := by
  intro fuel
  induction fuel with
  | zero =>
    intro fs h
    rw [Nat.le_zero] at h
    rw [List.length_eq_zero] at h
    subst h
    rfl
  | succ fuel ih =>
    intro fs h
    cases fs with
    | nil => rfl
    | cons f fs' =>
      have hlen : ((f :: fs').drop 40).length ≤ fuel := by
        rw [List.length_drop]
        simp only [List.length_cons] at h ⊢
        omega
      rw [batchLoopAux, ih _ hlen, ← List.map_append, List.take_append_drop]
      simp

theorem batchLoop_eq_map (parse : List Char → Option JsonVal) (fs : List Blob) :
    batchLoop parse fs = fs.map (fun b => lineOf parse b.content) :=
  batchLoopAux_eq_map parse fs.length fs (Nat.le_refl _)

theorem startsWithL_append_cancel (x p l : List Char) :
    startsWithL (x ++ p) (x ++ l) = startsWithL p l := by
  induction x with
  | nil => rfl
  | cons c x ih => simp [startsWithL, ih]

theorem startsWithL_self (l : List Char) : startsWithL l l = true := by
  induction l with
  | nil => rfl
  | cons c l ih => simp [startsWithL, ih]

theorem dayPat_not_outKey (d : List Char) :
    startsWithL (dayPat d) (outKeyOf d) = false := by
  unfold dayPat outKeyOf
  rw [startsWithL_append_cancel]
  rfl

theorem countKey_putBlob (store : Store) (k body : List Char) :
    countKey (putBlob store k body) k = 1 := by
  unfold countKey putBlob
  rw [List.filter_append]
  have h1 : (store.blobs.filter (fun b => b.pathname ≠ k)).filter
      (fun b => b.pathname = k) = [] := by
    rw [List.filter_eq_nil_iff]
    intro b hb
    have := List.of_mem_filter hb
    simp only [decide_not] at this
    intro hk
    rw [hk] at this
    simp at this
  rw [h1]
  simp

theorem countKey_delBlob_of_ne (store : Store) (p k : List Char) (h : k ≠ p) :
    countKey (delBlob store p) k = countKey store k := by
  unfold countKey delBlob
  simp only
  induction store.blobs with
  | nil => rfl
  | cons b bs ih =>
    by_cases hk : b.pathname = k
    · have hp : b.pathname ≠ p := by rw [hk]; exact h
      rw [List.filter_cons, List.filter_cons, if_pos (by simpa), List.filter_cons,
        if_pos (by simpa), if_pos (by simpa)]
      simp only [List.length_cons, ih]
    · by_cases hp : b.pathname = p
      · rw [List.filter_cons, if_neg (by simpa), List.filter_cons, if_neg (by simpa), ih]
      · rw [List.filter_cons, if_pos (by simpa), List.filter_cons, List.filter_cons,
          if_neg (by simpa), if_neg (by simpa), ih]

theorem countKey_delAll_of_ne (files : List Blob) :
    ∀ (store : Store) (k : List Char),
      (∀ f ∈ files, k ≠ f.pathname) →
      countKey (delAll store files) k = countKey store k := by
  induction files with
  | nil => intro store k _; rfl
  | cons f fs ih =>
    intro store k h
    have h1 : k ≠ f.pathname := h f (List.mem_cons_self f fs)
    have h2 : ∀ g ∈ fs, k ≠ g.pathname := fun g hg => h g (List.mem_cons_of_mem f hg)
    unfold delAll
    rw [List.foldl_cons]
    have : (fs.foldl (fun st g => delBlob st g.pathname) (delBlob store f.pathname)) =
        delAll (delBlob store f.pathname) fs := rfl
    rw [this, ih _ k h2, countKey_delBlob_of_ne store f.pathname k h1]

theorem mem_delAll (files : List Blob) :
    ∀ (store : Store) (b : Blob), b ∈ store.blobs →
      (∀ f ∈ files, b.pathname ≠ f.pathname) → b ∈ (delAll store files).blobs := by
  induction files with
  | nil => intro store b hb _; exact hb
  | cons f fs ih =>
    intro store b hb h
    have h1 : b.pathname ≠ f.pathname := h f (List.mem_cons_self f fs)
    have h2 : ∀ g ∈ fs, b.pathname ≠ g.pathname :=
      fun g hg => h g (List.mem_cons_of_mem f hg)
    unfold delAll
    rw [List.foldl_cons]
    exact ih (delBlob store f.pathname) b
      (List.mem_filter.mpr ⟨hb, by simpa⟩) h2

theorem length_filter_some_add_none (parse : List Char → Option JsonVal)
    (fs : List Blob) :
    (fs.filter (fun b => (parse b.content).isSome)).length +
      (fs.filter (fun b => (parse b.content).isNone)).length = fs.length := by
  induction fs with
  | nil => rfl
  | cons f fs ih =>
    rcases hp : parse f.content with _ | v
    · rw [List.filter_cons, List.filter_cons]
      rw [if_neg (by simp [hp]), if_pos (by simp [hp])]
      simp only [List.length_cons]
      omega
    · rw [List.filter_cons, List.filter_cons]
      rw [if_pos (by simp [hp]), if_neg (by simp [hp])]
      simp only [List.length_cons]
      omega

theorem compactGET_forbidden_eq (parse : List Char → Option JsonVal)
    (env : CompactEnv) (req : CompactReq) (dd : List Char) (store : Store)
    (h : okAuth env req = false) :
    compactGET parse env req dd store = (store, [], .forbidden) := by
  simp [compactGET, h]

theorem compactGET_already_eq (parse : List Char → Option JsonVal)
    (env : CompactEnv) (req : CompactReq) (dd : List Char) (store : Store)
    (hA : okAuth env req = true)
    (hF : req.forceParam ≠ some ['1'])
    (hEx : listByPat store (outKeyOf (resolvedDay req dd)) ≠ []) :
    compactGET parse env req dd store =
      (store, [.listOp (outKeyOf (resolvedDay req dd))],
        .already (resolvedDay req dd) (outKeyOf (resolvedDay req dd))) := by
  have hpos : 0 < (listByPat store (outKeyOf (resolvedDay req dd))).length :=
    List.length_pos.mpr hEx
  simp [compactGET, hA, hF, hpos]

theorem compactGET_merged_eq (parse : List Char → Option JsonVal)
    (env : CompactEnv) (req : CompactReq) (dd : List Char) (store : Store)
    (hA : okAuth env req = true)
    (hG : req.forceParam = some ['1'] ∨
      listByPat store (outKeyOf (resolvedDay req dd)) = [])
    (hne : eventFiles store (resolvedDay req dd) ≠ []) :
    compactGET parse env req dd store =
      (delAll
          (putBlob store (outKeyOf (resolvedDay req dd))
            (mergedBody parse store (resolvedDay req dd)))
          (eventFiles store (resolvedDay req dd)),
        [.listOp (outKeyOf (resolvedDay req dd)),
            .listOp (dayPat (resolvedDay req dd))] ++
          (eventFiles store (resolvedDay req dd)).map
            (fun b => .readOp b.pathname) ++
          [.putOp (outKeyOf (resolvedDay req dd))
            (mergedBody parse store (resolvedDay req dd))] ++
          (eventFiles store (resolvedDay req dd)).map
            (fun b => .delOp b.pathname),
        .merged (resolvedDay req dd) (outKeyOf (resolvedDay req dd))
          (eventFiles store (resolvedDay req dd)).length) := by
  have hlen : (eventFiles store (resolvedDay req dd)).length ≠ 0 := by
    simpa [List.length_eq_zero] using hne
  rcases hG with hG | hG
  · simp [compactGET, hA, hG, hlen]
  · simp [compactGET, hA, hG, hlen]

/-- C8: a compaction request whose Authorization header is not
`Bearer <shared-secret>` and whose `key` query parameter is not the admin key
is answered 403 Forbidden, with no storage operation performed. -/
theorem compact_unauthorized_forbidden (parse : List Char → Option JsonVal)
    (env : CompactEnv) (req : CompactReq) (dd : List Char) (store : Store)
    (hAuth : req.authHeader.getD [] ≠ "Bearer ".data ++ env.cronSecret)
    (hKey : req.keyParam.getD [] ≠ env.logAdminKey) :
    compactGET parse env req dd store = (store, [], .forbidden) ∧
    statusOf CompactResp.forbidden = 403 := by
  have h : okAuth env req = false := by
    unfold okAuth
    simp [hKey]
    intro _
    simpa using hAuth
  exact ⟨compactGET_forbidden_eq parse env req dd store h, rfl⟩

/-- C8 witness: concrete unauthorized request against a configured
environment; the run returns the untouched store, an empty operation trace
and the 403 response. -/
theorem compact_unauthorized_forbidden_witness :
    compactGET (fun _ => none) ⟨"sec".data, "adm".data⟩
        ⟨some "Bearer wrong".data, some "nope".data, none, none⟩
        "2024-05-04".data
        ⟨[⟨"logs/2024-05-04/10-00-00-000.json".data, "x".data⟩]⟩ =
      (⟨[⟨"logs/2024-05-04/10-00-00-000.json".data, "x".data⟩]⟩, [],
        .forbidden) :=
  (compact_unauthorized_forbidden (fun _ => none) _ _ _ _ (by decide)
    (by decide)).1

/-- C3: with valid authorization and no `force=1` override, if the merged
output object already exists the run returns immediately with
`written:false`, `deleted:0`, having performed only the existence check; and
for a first run over per-event files, the run writes (written:true), leaves
exactly one merged object at the output key, and a second identical run is
the `already` no-op performing only the existence check. -/
theorem compact_idempotency (parse : List Char → Option JsonVal)
    (env : CompactEnv) (req : CompactReq) (dd : List Char) (store : Store)
    (hA : okAuth env req = true)
    (hF : req.forceParam ≠ some ['1']) :
    (listByPat store (outKeyOf (resolvedDay req dd)) ≠ [] →
      compactGET parse env req dd store =
        (store, [.listOp (outKeyOf (resolvedDay req dd))],
          .already (resolvedDay req dd) (outKeyOf (resolvedDay req dd))) ∧
      writtenOf (compactGET parse env req dd store).2.2 = false ∧
      deletedOf (compactGET parse env req dd store).2.2 = 0) ∧
    (listByPat store (outKeyOf (resolvedDay req dd)) = [] →
      eventFiles store (resolvedDay req dd) ≠ [] →
      writtenOf (compactGET parse env req dd store).2.2 = true ∧
      countKey (compactGET parse env req dd store).1
        (outKeyOf (resolvedDay req dd)) = 1 ∧
      compactGET parse env req dd (compactGET parse env req dd store).1 =
        ((compactGET parse env req dd store).1,
          [.listOp (outKeyOf (resolvedDay req dd))],
          .already (resolvedDay req dd) (outKeyOf (resolvedDay req dd)))) := by
  constructor
  · intro hEx
    have h := compactGET_already_eq parse env req dd store hA hF hEx
    refine ⟨h, ?_, ?_⟩ <;> rw [h] <;> rfl
  · intro hNo hne
    have hm := compactGET_merged_eq parse env req dd store hA (Or.inr hNo) hne
    have hfe : ∀ f ∈ eventFiles store (resolvedDay req dd),
        outKeyOf (resolvedDay req dd) ≠ f.pathname := by
      intro f hf heq
      have h1 : f ∈ listByPat store (dayPat (resolvedDay req dd)) :=
        List.mem_of_mem_filter hf
      have h2 := List.of_mem_filter h1
      rw [← heq] at h2
      rw [dayPat_not_outKey (resolvedDay req dd)] at h2
      exact absurd h2 (by decide)
    refine ⟨?_, ?_, ?_⟩
    · rw [hm]
      rfl
    · rw [hm]
      show countKey (delAll _ _) _ = 1
      rw [countKey_delAll_of_ne _ _ _ hfe, countKey_putBlob]
    · have hb0 : (⟨outKeyOf (resolvedDay req dd),
          mergedBody parse store (resolvedDay req dd)⟩ : Blob) ∈
          (putBlob store (outKeyOf (resolvedDay req dd))
            (mergedBody parse store (resolvedDay req dd))).blobs := by
        simp [putBlob]
      have hmem := mem_delAll (eventFiles store (resolvedDay req dd)) _ _ hb0
        (fun f hf => hfe f hf)
      have hEx2 : listByPat (compactGET parse env req dd store).1
          (outKeyOf (resolvedDay req dd)) ≠ [] := by
        rw [hm]
        exact List.ne_nil_of_mem (List.mem_filter.mpr
          ⟨hmem, by simpa using startsWithL_self (outKeyOf (resolvedDay req dd))⟩)
      exact compactGET_already_eq parse env req dd _ hA hF hEx2

/-- C3 witness: a concrete authorized first run over one per-event object
writes, then the immediate second run reports the no-op. -/
theorem compact_idempotency_witness :
    writtenOf (compactGET (fun _ => none) ⟨"sec".data, "adm".data⟩
        ⟨some "Bearer sec".data, none, some "2024-05-05".data, none⟩
        "2024-05-04".data
        ⟨[⟨"logs/2024-05-05/10-00-00-000.json".data, "x".data⟩]⟩).2.2 = true :=
  ((compact_idempotency (fun _ => none) _ _ _ _ (by decide) (by decide)).2
    (by decide) (by decide)).1

/-- C2: a run that reaches the merge (authorized; forced or no existing
output; at least one per-event file) writes to the day's output key the
concatenation, in listing order, of one line per file: re-serialized compact
JSON (newline-free, newline-terminated) for files whose content parses, and
the raw text with a trailing newline ensured for files whose content does
not; the valid and invalid files partition the N+M total. -/
theorem compact_merge_correctness (parse : List Char → Option JsonVal)
    (env : CompactEnv) (req : CompactReq) (dd : List Char) (store : Store)
    (hA : okAuth env req = true)
    (hG : req.forceParam = some ['1'] ∨
      listByPat store (outKeyOf (resolvedDay req dd)) = [])
    (hne : eventFiles store (resolvedDay req dd) ≠ []) :
    compactGET parse env req dd store =
      (delAll
          (putBlob store (outKeyOf (resolvedDay req dd))
            (mergedBody parse store (resolvedDay req dd)))
          (eventFiles store (resolvedDay req dd)),
        [.listOp (outKeyOf (resolvedDay req dd)),
            .listOp (dayPat (resolvedDay req dd))] ++
          (eventFiles store (resolvedDay req dd)).map
            (fun b => .readOp b.pathname) ++
          [.putOp (outKeyOf (resolvedDay req dd))
            (mergedBody parse store (resolvedDay req dd))] ++
          (eventFiles store (resolvedDay req dd)).map
            (fun b => .delOp b.pathname),
        .merged (resolvedDay req dd) (outKeyOf (resolvedDay req dd))
          (eventFiles store (resolvedDay req dd)).length) ∧
    mergedBody parse store (resolvedDay req dd) =
      ((eventFiles store (resolvedDay req dd)).map
        (fun b => lineOf parse b.content)).flatten ∧
    (∀ b ∈ eventFiles store (resolvedDay req dd), ∀ v : JsonVal,
      parse b.content = some v →
      lineOf parse b.content = stringify v ++ ['\n'] ∧ '\n' ∉ stringify v) ∧
    (∀ b ∈ eventFiles store (resolvedDay req dd), parse b.content = none →
      lineOf parse b.content =
        (if endsWithL ['\n'] b.content then b.content else b.content ++ ['\n'])) ∧
    ((eventFiles store (resolvedDay req dd)).filter
        (fun b => (parse b.content).isSome)).length +
      ((eventFiles store (resolvedDay req dd)).filter
        (fun b => (parse b.content).isNone)).length =
      (eventFiles store (resolvedDay req dd)).length := by
  refine ⟨compactGET_merged_eq parse env req dd store hA hG hne, ?_, ?_, ?_, ?_⟩
  · unfold mergedBody
    rw [batchLoop_eq_map]
  · intro b _ v hv
    unfold lineOf
    rw [hv]
    exact ⟨rfl, nl_not_mem_stringify v⟩
  · intro b _ hp
    unfold lineOf
    rw [hp]
  · exact length_filter_some_add_none parse (eventFiles store (resolvedDay req dd))

/-- C2 witness: a concrete forced-free run over two per-event objects; the
merged body is the per-file lines in listing order. -/
theorem compact_merge_correctness_witness :
    mergedBody (fun _ => none)
        ⟨[⟨"logs/2024-05-05/10-00-00-000.json".data, "raw1".data⟩,
          ⟨"logs/2024-05-05/10-00-00-001.json".data, "raw2\n".data⟩]⟩
        "2024-05-05".data =
      ((eventFiles
          ⟨[⟨"logs/2024-05-05/10-00-00-000.json".data, "raw1".data⟩,
            ⟨"logs/2024-05-05/10-00-00-001.json".data, "raw2\n".data⟩]⟩
          "2024-05-05".data).map
        (fun b => lineOf (fun _ => none) b.content)).flatten :=
  (compact_merge_correctness (fun _ => none) ⟨"sec".data, "adm".data⟩
    ⟨some "Bearer sec".data, none, some "2024-05-05".data, none⟩
    "2024-05-04".data _ (by decide) (Or.inr (by decide)) (by decide)).2.1

theorem blank_cond_of_trim_ne {a : List Char} (h : jsTrim a ≠ []) :
    ¬(a = [] ∨ (jsTrim a).length = 0) := by
  rintro (h1 | h1)
  · subst h1
    exact h rfl
  · exact h (List.length_eq_zero.mp h1)

theorem sendTurnIfReady_some (current : PendingTurn) (a : List Char)
    (meta : List (List Char × List Char)) (ts id path : List Char)
    (h : jsTrim a ≠ []) :
    sendTurnIfReady (some current) a meta ts id path =
      (none, some ⟨current.id, current.userText.getD [],
        current.userTs.getD [], a, ts, meta ++ [("path".data, path)]⟩) := by
  unfold sendTurnIfReady
  rw [if_neg (blank_cond_of_trim_ne h)]

theorem sendTurnIfReady_none (a : List Char)
    (meta : List (List Char × List Char)) (ts id path : List Char)
    (h : jsTrim a ≠ []) :
    sendTurnIfReady none a meta ts id path =
      (none, some ⟨id, [], [], a, ts, meta ++ [("path".data, path)]⟩) := by
  unfold sendTurnIfReady
  rw [if_neg (blank_cond_of_trim_ne h)]

/-- C5: after `begin("hello")`, a `complete("hi there")` emits a payload with
`user_text = "hello"` paired from the buffer (and clears it); and a complete
with non-blank assistant text while no PendingTurn is buffered still emits a
payload, with empty `user_text` and `user_ts`. -/
theorem turn_correlation (st : Option PendingTurn)
    (meta meta2 : List (List Char × List Char))
    (id1 ts1 id2 ts2 id3 ts3 path path2 : List Char) :
    sendTurnIfReady (beginTurn st "hello".data id1 ts1) "hi there".data
        meta ts2 id2 path =
      (none, some ⟨id1, "hello".data, ts1, "hi there".data, ts2,
        meta ++ [("path".data, path)]⟩) ∧
    (∀ a : List Char, jsTrim a ≠ [] →
      sendTurnIfReady none a meta2 ts3 id3 path2 =
        (none, some ⟨id3, [], [], a, ts3, meta2 ++ [("path".data, path2)]⟩)) := by
  constructor
  · have hb : beginTurn st "hello".data id1 ts1 =
        some ⟨id1, some "hello".data, some ts1⟩ := by
      unfold beginTurn
      rw [if_pos (by decide)]
    rw [hb, sendTurnIfReady_some _ _ _ _ _ _ (by decide)]
    rfl
  · intro a ha
    exact sendTurnIfReady_none a meta2 ts3 id3 path2 ha

/-- C5 witness: the no-PendingTurn completion at the concrete text `"hi"`. -/
theorem turn_correlation_witness :
    sendTurnIfReady none "hi".data [] "T2".data "I2".data "/p".data =
      (none, some ⟨"I2".data, [], [], "hi".data, "T2".data,
        [("path".data, "/p".data)]⟩) :=
  (turn_correlation none [] [] [] [] [] [] "I2".data "T2".data []
    "/p".data).2 "hi".data (by decide)

/-- C7: completing with empty or whitespace-only assistant text is a no-op:
the state is unchanged and no payload (hence no ingestion write) is
emitted. -/
theorem empty_completion_suppressed (st : Option PendingTurn) (a : List Char)
    (meta : List (List Char × List Char)) (ts id path : List Char)
    (h : a = [] ∨ jsTrim a = []) :
    sendTurnIfReady st a meta ts id path = (st, none) := by
  unfold sendTurnIfReady
  rw [if_pos]
  rcases h with h | h
  · exact Or.inl h
  · exact Or.inr (by rw [h]; rfl)

/-- C7 witness: a whitespace-only completion over a buffered PendingTurn. -/
theorem empty_completion_suppressed_witness :
    sendTurnIfReady (some ⟨"I1".data, some "hello".data, some "T1".data⟩)
        "   ".data [] "T2".data "I2".data "/p".data =
      (some ⟨"I1".data, some "hello".data, some "T1".data⟩, none) :=
  empty_completion_suppressed _ "   ".data [] "T2".data "I2".data "/p".data
    (Or.inr (by decide))

/-- C9: a blank completion leaves the PendingTurn slot untouched (it is
cleared only on the emission path), so a later non-blank completion still
pairs with and consumes the buffered user utterance. -/
theorem pending_turn_frame (p : PendingTurn) (aWs a2 : List Char)
    (meta meta2 : List (List Char × List Char))
    (ts id path ts2 id2 path2 : List Char)
    (h1 : aWs = [] ∨ jsTrim aWs = []) (h2 : jsTrim a2 ≠ []) :
    (sendTurnIfReady (some p) aWs meta ts id path).1 = some p ∧
    sendTurnIfReady (sendTurnIfReady (some p) aWs meta ts id path).1 a2
        meta2 ts2 id2 path2 =
      (none, some ⟨p.id, p.userText.getD [], p.userTs.getD [], a2, ts2,
        meta2 ++ [("path".data, path2)]⟩) := by
  have hfirst : sendTurnIfReady (some p) aWs meta ts id path = (some p, none) := by
    unfold sendTurnIfReady
    rw [if_pos]
    rcases h1 with h | h
    · exact Or.inl h
    · exact Or.inr (by rw [h]; rfl)
  constructor
  · rw [hfirst]
  · rw [hfirst]
    exact sendTurnIfReady_some p a2 meta2 ts2 id2 path2 h2

/-- C9 witness: whitespace completion then `"ok"` completion over a concrete
buffered turn. -/
theorem pending_turn_frame_witness :
    (sendTurnIfReady (some ⟨"I1".data, some "hello".data, some "T1".data⟩)
        " ".data [] "T2".data "I2".data "/p".data).1 =
      some ⟨"I1".data, some "hello".data, some "T1".data⟩ :=
  (pending_turn_frame ⟨"I1".data, some "hello".data, some "T1".data⟩
    " ".data "ok".data [] [] "T2".data "I2".data "/p".data
    "T3".data "I3".data "/q".data (Or.inr (by decide)) (by decide)).1

theorem jsString_jstr (str : List Char) : jsString (.jstr str) = str := by
  simp [jsString]

theorem jsString_jnum (n : Int) : jsString (.jnum n) = intChars n := by
  simp [jsString]

theorem cap_length_le (v : Option JsonVal) (n : Nat) : (cap v n).length ≤ n :=
  List.length_take_le _ _

/-- C1 counterexample: the turn-aware handler persists a legacy-shape body
with a 50-character role unchanged — the stored role has length 50, not the
claimed cap of 20. -/
theorem log_event_capping_counterexample :
    (turnPOST (some (.jobj [("role".data, .jstr (List.replicate 50 'r')),
          ("text".data, .jstr "hi".data)]))
        (some "UA".data) "2024-05-05T10:00:00.000Z".data true).2 =
      some ("logs/2024-05-05/10-00-00-000.json".data,
        .legacyRec ⟨"2024-05-05T10:00:00.000Z".data, List.replicate 50 'r',
          "hi".data, 2, [], [], .jobj [], "UA".data⟩) ∧
    (List.replicate 50 'r').length = 50 ∧ ¬(50 ≤ 20) := by
  refine ⟨?_, by simp, by decide⟩
  have hne : List.replicate 50 'r' ≠ [] := by simp
  have hrole : jsOrDefault (some (.jstr (List.replicate 50 'r'))) "user".data =
      List.replicate 50 'r' := by
    simp [jsOrDefault, jsFalsy, jsString_jstr, hne]
  have htext : jsOrEmpty (some (.jstr "hi".data)) = "hi".data := by
    simp [jsOrEmpty, jsOrDefault, jsFalsy, jsString_jstr]
  simp only [turnPOST]
  rw [if_neg (by decide)]
  simp only [Option.getD_some]
  rw [show getField (JsonVal.jobj [("role".data, .jstr (List.replicate 50 'r')),
        ("text".data, .jstr "hi".data)]) "role".data =
      some (.jstr (List.replicate 50 'r')) from rfl,
    show getField (JsonVal.jobj [("role".data, .jstr (List.replicate 50 'r')),
        ("text".data, .jstr "hi".data)]) "text".data =
      some (.jstr "hi".data) from rfl,
    show getField (JsonVal.jobj [("role".data, .jstr (List.replicate 50 'r')),
        ("text".data, .jstr "hi".data)]) "sessionId".data =
      (none : Option JsonVal) from rfl,
    show getField (JsonVal.jobj [("role".data, .jstr (List.replicate 50 'r')),
        ("text".data, .jstr "hi".data)]) "threadId".data =
      (none : Option JsonVal) from rfl,
    show getField (JsonVal.jobj [("role".data, .jstr (List.replicate 50 'r')),
        ("text".data, .jstr "hi".data)]) "meta".data =
      (none : Option JsonVal) from rfl,
    hrole, htext]
  simp only [if_true]
  rfl

/-- C1 (amended): the capped legacy handler (route.ts) length-caps every
free-text/identifier field of every record it persists — role to 20, text to
4000, session/thread identifiers to 200, user-agent to 400 — while the
turn-aware handler (part_000) stores its fields uncapped. -/
theorem log_event_capping (body : JsonVal) (ua? : Option (List Char))
    (nowIso day time errMsg : List Char) (putOk : Bool)
    (key : List Char) (rec : LegacyRecord)
    (h : (routePOST (some body) ua? nowIso day time errMsg putOk).2 =
      some (key, rec)) :
    rec.role = cap (getField body "role".data) 20 ∧
    rec.text = cap (getField body "text".data) 4000 ∧
    rec.sessionId = cap (getField body "sessionId".data) 200 ∧
    rec.threadId = cap (getField body "threadId".data) 200 ∧
    rec.ua = cap (ua?.map .jstr) 400 ∧
    rec.role.length ≤ 20 ∧ rec.text.length ≤ 4000 ∧
    rec.sessionId.length ≤ 200 ∧ rec.threadId.length ≤ 200 ∧
    rec.ua.length ≤ 400 := by
  cases body
  case jnull => simp [routePOST] at h
  all_goals
    (simp only [routePOST] at h
     split at h
     · simp only [Option.some.injEq, Prod.mk.injEq] at h
       obtain ⟨h1, h2⟩ := h
       subst h2
       dsimp only
       exact ⟨rfl, rfl, rfl, rfl, rfl, cap_length_le _ _, cap_length_le _ _,
         cap_length_le _ _, cap_length_le _ _, cap_length_le _ _⟩
     · exact absurd h (by simp))

/-- C1 witness: the amended theorem at a body with a 10,000-character text
and a 50-character role. -/
theorem log_event_capping_witness :
    (cap (getField (JsonVal.jobj
        [("role".data, .jstr (List.replicate 50 'r')),
          ("text".data, .jstr (List.replicate 10000 't'))]) "text".data)
      4000).length ≤ 4000 :=
  (log_event_capping
    (.jobj [("role".data, .jstr (List.replicate 50 'r')),
      ("text".data, .jstr (List.replicate 10000 't'))])
    none "TS".data "D".data "T".data "E".data true _ _ rfl).2.2.2.2.2.2.1

/-- C10 counterexample: the turn-aware handler's legacy branch computes `len`
as the length of the string-coercion of `text`, not `0`, when the submitted
text is not a string — a numeric `text: 123` is stored with `len = 3`. -/
theorem log_event_len_counterexample :
    (turnPOST (some (.jobj [("text".data, .jnum 123)])) none
        "2024-05-05T10:00:00.000Z".data true).2 =
      some ("logs/2024-05-05/10-00-00-000.json".data,
        .legacyRec ⟨"2024-05-05T10:00:00.000Z".data, "user".data,
          "123".data, 3, [], [], .jobj [], []⟩) ∧
    (3 : Nat) ≠ 0 := by
  refine ⟨?_, by decide⟩
  have htext : jsOrEmpty (some (.jnum 123)) = "123".data := by
    simp only [jsOrEmpty, jsOrDefault, jsFalsy, jsString_jnum]
    rw [if_neg (by decide)]
    rfl
  simp only [turnPOST]
  rw [if_neg (by decide)]
  simp only [Option.getD_some, Option.getD_none]
  rw [show getField (JsonVal.jobj [("text".data, .jnum 123)]) "text".data =
      some (.jnum 123) from rfl,
    show getField (JsonVal.jobj [("text".data, .jnum 123)]) "role".data =
      (none : Option JsonVal) from rfl,
    show getField (JsonVal.jobj [("text".data, .jnum 123)]) "sessionId".data =
      (none : Option JsonVal) from rfl,
    show getField (JsonVal.jobj [("text".data, .jnum 123)]) "threadId".data =
      (none : Option JsonVal) from rfl,
    show getField (JsonVal.jobj [("text".data, .jnum 123)]) "meta".data =
      (none : Option JsonVal) from rfl,
    htext]
  simp only [if_true]
  rfl

/-- C10 (amended): in the capped handler (route.ts) the stored `len` is the
submitted string's length (0 when the submitted text is not a string or is
absent), computed before the 4000-character truncation of the stored text, so
`len` exceeds the stored text's length whenever the submitted string is
longer than 4000; in the turn-aware handler (part_000) `len` is the length of
the string-coercion of `text`, which is exactly the stored (untruncated)
text's length. -/
theorem log_event_len (body : JsonVal) (ua? : Option (List Char))
    (nowIso day time errMsg : List Char) (putOk : Bool)
    (key : List Char) (rec : LegacyRecord)
    (h : (routePOST (some body) ua? nowIso day time errMsg putOk).2 =
      some (key, rec)) :
    (∀ s : List Char, getField body "text".data = some (.jstr s) →
      rec.len = s.length ∧ rec.text = s.take 4000 ∧
      (4000 < s.length → rec.text.length < rec.len)) ∧
    (getField body "text".data = none → rec.len = 0) ∧
    (∀ v : JsonVal, getField body "text".data = some v → isStrVal v = false →
      rec.len = 0) ∧
    (∀ body2 key2 rec2, (turnPOST (some body2) ua? nowIso putOk).2 =
      some (key2, .legacyRec rec2) → rec2.len = rec2.text.length) := by
  have hmain : ∀ bodyX : JsonVal, bodyX ≠ .jnull →
      (routePOST (some bodyX) ua? nowIso day time errMsg putOk).2 =
        some (key, rec) →
      rec.len = (match getField bodyX "text".data with
        | some (.jstr s) => s.length
        | _ => 0) ∧
      rec.text = cap (getField bodyX "text".data) 4000 := by
    intro bodyX hX h
    cases bodyX
    case jnull => exact absurd rfl hX
    all_goals
      (simp only [routePOST] at h
       split at h
       · simp only [Option.some.injEq, Prod.mk.injEq] at h
         obtain ⟨h1, h2⟩ := h
         subst h2
         exact ⟨rfl, rfl⟩
       · exact absurd h (by simp))
  have hX : body ≠ .jnull := by
    intro hb
    subst hb
    simp [routePOST] at h
  obtain ⟨hlen, htext⟩ := hmain body hX h
  refine ⟨?_, ?_, ?_, ?_⟩
  · intro s hs
    rw [hs] at hlen htext
    refine ⟨hlen, ?_, ?_⟩
    · rw [htext]
      simp only [cap]
      rw [jsString_jstr]
    · intro hbig
      rw [htext, hlen]
      simp only [cap]
      rw [jsString_jstr, List.length_take]
      omega
  · intro hs
    rw [hs] at hlen
    exact hlen
  · intro v hv hnstr
    rw [hv] at hlen
    cases v <;> simp_all [isStrVal]
  · intro body2 key2 rec2 h2
    simp only [turnPOST] at h2
    split at h2
    · split at h2
      · simp only [Option.some.injEq, Prod.mk.injEq] at h2
        obtain ⟨_, h3⟩ := h2
        cases h3
      · exact absurd h2 (by simp)
    · split at h2
      · exact absurd h2 (by simp)
      · split at h2
        · simp only [Option.some.injEq, Prod.mk.injEq,
            StoredRec.legacyRec.injEq] at h2
          obtain ⟨_, h3⟩ := h2
          rw [← h3]
        · exact absurd h2 (by simp)

/-- C10 witness: a 4001-character submitted text is stored with `len = 4001`
while the stored text is truncated to 4000 characters. -/
theorem log_event_len_witness :
    4000 < (List.replicate 4001 'a').length ∧
    (cap (some (JsonVal.jstr (List.replicate 4001 'a'))) 4000).length <
      (List.replicate 4001 'a').length := by
  have happ := (log_event_len
    (.jobj [("text".data, .jstr (List.replicate 4001 'a'))])
    none "TS".data "D".data "T".data "E".data true _ _ rfl).1
    (List.replicate 4001 'a') rfl
  have hbig : 4000 < (List.replicate 4001 'a').length := by
    rw [List.length_replicate]
    omega
  refine ⟨hbig, ?_⟩
  have h3 := happ.2.2 hbig
  rw [happ.2.1, happ.1] at h3
  have hc : cap (some (JsonVal.jstr (List.replicate 4001 'a'))) 4000 =
      (List.replicate 4001 'a').take 4000 := by
    simp only [cap, jsString_jstr]
  rw [hc]
  exact h3

/-- C4 counterexample: on a malformed body, route.ts answers 400 with
`error: String(err)` — the body echoes the exception detail (two different
exception strings produce two different responses), not a fixed generic
string; and the turn-aware handler answers a body that fails JSON parsing
with 200, not 400, because the parse failure degrades to an empty object. -/
theorem log_event_error_counterexample :
    (routePOST none none "TS".data "D".data "T".data
        "SyntaxError: Unexpected token u".data true).1 =
      .err "SyntaxError: Unexpected token u".data ∧
    (routePOST none none "TS".data "D".data "T".data
        "SyntaxError: Unexpected token u".data true).1 ≠
      (routePOST none none "TS".data "D".data "T".data
        "SyntaxError: other".data true).1 ∧
    logStatus (turnPOST none none "2024-05-05T10:00:00.000Z".data true).1 =
      200 := by
  refine ⟨rfl, by decide, rfl⟩

/-- C4 (amended): both handlers only ever answer 200 or 400 (never 5xx);
route.ts answers a parse failure 400 with `{ok:false, error}` where the error
is `String(err)` — it varies with the exception rather than being a fixed
generic string — and answers 200 `{ok:true, key}` exactly when a record is
persisted; the turn-aware handler answers every thrown error with the generic
400 `"bad_request"`, but a body that fails JSON parsing is treated as `{ }`
and persisted with 200. -/
theorem log_event_error_handling (body? : Option JsonVal)
    (ua? : Option (List Char)) (nowIso day time errMsg : List Char)
    (putOk : Bool) (body2? : Option JsonVal) (ua2? : Option (List Char))
    (ts2 : List Char) :
    (logStatus (routePOST body? ua? nowIso day time errMsg putOk).1 = 200 ∨
      logStatus (routePOST body? ua? nowIso day time errMsg putOk).1 = 400) ∧
    (routePOST none ua? nowIso day time errMsg putOk).1 = .err errMsg ∧
    (∀ key rec, (routePOST body? ua? nowIso day time errMsg putOk).2 =
        some (key, rec) →
      (routePOST body? ua? nowIso day time errMsg putOk).1 = .ok key) ∧
    (logStatus (turnPOST body2? ua2? ts2 putOk).1 = 200 ∨
      logStatus (turnPOST body2? ua2? ts2 putOk).1 = 400) ∧
    (turnPOST body2? ua2? ts2 false).1 = .err "bad_request".data ∧
    (turnPOST none ua2? ts2 true).1 =
      .ok ("logs/".data ++ ts2.take 10 ++ '/' :: timeOfIso ts2 ++
        ".json".data) := by
  refine ⟨?_, rfl, ?_, ?_, ?_, rfl⟩
  · rcases hr : (routePOST body? ua? nowIso day time errMsg putOk).1 with k | e
    · exact Or.inl rfl
    · exact Or.inr rfl
  · intro key rec h
    rcases body? with _ | body
    · simp [routePOST] at h
    · cases body
      case jnull => simp [routePOST] at h
      all_goals
        (simp only [routePOST] at h ⊢
         split at h
         · simp only [Option.some.injEq, Prod.mk.injEq] at h
           rw [if_pos (by assumption), h.1]
         · exact absurd h (by simp))
  · rcases ht : (turnPOST body2? ua2? ts2 putOk).1 with k | e
    · exact Or.inl rfl
    · exact Or.inr rfl
  · simp only [turnPOST]
    split
    · rfl
    · split
      · rfl
      · rfl

/-- C4 witness: a well-formed empty-object body is persisted and answered
200 with its key. -/
theorem log_event_error_handling_witness :
    (routePOST (some (.jobj [])) none "TS".data "D".data "T".data "E".data
        true).1 =
      .ok ("logs/".data ++ "D".data ++ '/' :: "T".data ++ ".json".data) :=
  (log_event_error_handling (some (.jobj [])) none "TS".data "D".data
    "T".data "E".data true none none "TS2".data).2.2.1 _ _ rfl

end IArsenicBot
